import Mathlib

set_option maxHeartbeats 1000000

/-!
Shallow embedding of the two debug-dump reformatters of
src/backend/nodes/print.c: format_node_dump, the whitespace line wrapper,
and pretty_format_node_dump, the structure-aware pretty printer.

A dump is a NUL-terminated C string, i.e. a finite sequence of non-NUL
characters; we model it as a List Char, and reading past the end yields
the NUL terminator, exactly as in C.
-/

/-- NUL, the C string terminator. -/
def nulChar : Char := Char.ofNat 0

/-- Reading the dump at index i as C reads a NUL-terminated string:
positions at or past the end read as NUL. -/
def chAt (dump : List Char) (i : Nat) : Char := dump.getD i nulChar

/-- LINELEN from print.c (78). -/
def LINELEN : Nat := 78

/-- INDENTSTOP from print.c (3). -/
def INDENTSTOP : Int := 3

/-- MAXINDENT from print.c (60). -/
def MAXINDENT : Int := 60

/-- The Bool predicate selecting non-space characters. -/
def notSpace (c : Char) : Bool := decide (c ≠ ' ')

/-- Number of leading spaces of a character list. -/
def leadSpaces : List Char → Nat
  | [] => 0
  | c :: cs => if c = ' ' then leadSpaces cs + 1 else 0

/-- Cursor position after the space-skipping while loops of
pretty_format_node_dump (print.c lines 277 and 287): the first index at or
after i holding a non-space character (or the end of the dump). -/
def skipSp (dump : List Char) (i : Nat) : Nat := i + leadSpaces (dump.drop i)

/-- The backward scan of format_node_dump (print.c lines 202 to 204): for k
from the given start down to 1, the first k with line k a space, else 0. -/
def scanBack (line : List Char) : Nat → Nat
  | 0 => 0
  | k + 1 => if line.getD (k + 1) nulChar = ' ' then k + 1 else scanBack line k

/-- How an emitted line of format_node_dump came about: the final flush
after the input ran out, a break at an adjacent space (print.c line 198),
a break at a space found by the backward scan (lines 206 to 210), or the
hard emit of the full buffer when the scan found no space (k reached 0). -/
inductive BreakKind
  | last
  | spaceBreak
  | scanBreak
  | hardBreak
deriving DecidableEq

/-- The outer loop of format_node_dump (print.c lines 189 to 219), one
recursive step per iteration, annotated with the kind of break that ended
each emitted line.  The copy loop at line 191 copies
min LINELEN (length - i) characters starting at i; the fuel argument only
bounds the number of iterations and is irrelevant once it exceeds the
input length (each iteration advances the cursor). -/
def fnd_go (dump : List Char) : Nat → Nat → List (List Char × BreakKind)
  | 0, _ => []
  | fuel + 1, i =>
    let j := min LINELEN (dump.length - i)
    let line := (dump.drop i).take LINELEN
    if dump.length ≤ i + j then
      if 0 < j then [(line, BreakKind.last)] else []
    else if chAt dump (i + j) = ' ' then
      (line, BreakKind.spaceBreak) :: fnd_go dump fuel (i + j + 1)
    else
      let k := scanBack line (j - 1)
      if 0 < k then (line.take k, BreakKind.scanBreak) :: fnd_go dump fuel (i + k + 1)
      else (line, BreakKind.hardBreak) :: fnd_go dump fuel (i + j)

/-- Sufficient fuel for fnd_go: the cursor strictly advances at every
iteration. -/
def fndFuel (dump : List Char) : Nat := dump.length + 1

/-- The annotated run of format_node_dump from the start of the dump. -/
def fnd_run (dump : List Char) : List (List Char × BreakKind) :=
  fnd_go dump (fndFuel dump) 0

/-- format_node_dump (print.c lines 177 to 222): the emitted lines in
order, each without its terminating newline. -/
def format_node_dump (dump : List Char) : List (List Char) :=
  (fnd_run dump).map Prod.fst

/-- The spaces prefilling a line up to the physical indent distance
(print.c lines 250 to 251); a non-positive distance prefills nothing,
as the C for loop would. -/
def indentSpaces (dist : Int) : List Char := List.replicate dist.toNat ' '

/-- The indent level after an outdent (print.c lines 269 to 273). -/
def outLev (lev : Int) : Int := if 0 < lev then lev - 1 else lev

/-- The indent distance after an outdent: recomputed only when the level
was positive (print.c lines 269 to 273), otherwise unchanged. -/
def outDist (lev dist : Int) : Int :=
  if 0 < lev then min (outLev lev * INDENTSTOP) MAXINDENT else dist

/-- The indent distance after an indent (print.c line 300). -/
def inDist (lev : Int) : Int := min ((lev + 1) * INDENTSTOP) MAXINDENT

/--
The scanning loop of pretty_format_node_dump (print.c lines 248 to 321),
one recursive step per processed character (or per width-bound flush).

State: the cursor i, indentLev and indentDist (C ints, modelled as Int),
and the current line buffer cur, holding line 0 to j of the C code, whose
positions below indentDist are always the prefilled spaces.

The first component of the result is the list of emitted lines; the
second is a trace recording, for every consumed character, the character
together with indentLev and indentDist right after it was handled.
-/
def pfd_go (dump : List Char) :
    Nat → Nat → Int → Int → List Char → List (List Char) × List (Char × Int × Int)
  | 0, _, _, _, _ => ([], [])
  | fuel + 1, i, indentLev, indentDist, cur =>
    if dump.length ≤ i then
      (if 0 < cur.length then [cur] else [], [])
    else if LINELEN ≤ cur.length then
      let r := pfd_go dump fuel i indentLev indentDist (indentSpaces indentDist)
      (cur :: r.1, r.2)
    else
      let c := chAt dump i
      if c = '}' then
        let flushed := if (cur.length : Int) ≠ indentDist then [cur] else []
        let r := pfd_go dump fuel (skipSp dump (i + 1)) (outLev indentLev)
          (outDist indentLev indentDist) (indentSpaces (outDist indentLev indentDist))
        (flushed ++ (indentSpaces indentDist ++ ['}']) :: r.1,
          ('}', outLev indentLev, outDist indentLev indentDist) :: r.2)
      else if c = ')' then
        if chAt dump (i + 1) ≠ ')' then
          let r := pfd_go dump fuel (skipSp dump (i + 1)) indentLev indentDist
            (indentSpaces indentDist)
          ((cur ++ [')']) :: r.1, (')', indentLev, indentDist) :: r.2)
        else
          let r := pfd_go dump fuel (i + 1) indentLev indentDist (cur ++ [')'])
          (r.1, (')', indentLev, indentDist) :: r.2)
      else if c = '{' then
        let flushed := if (cur.length : Int) ≠ indentDist then [cur] else []
        let r := pfd_go dump fuel (i + 1) (indentLev + 1) (inDist indentLev)
          (indentSpaces (inDist indentLev) ++ ['{'])
        (flushed ++ r.1, ('{', indentLev + 1, inDist indentLev) :: r.2)
      else if c = ':' then
        let flushed := if (cur.length : Int) ≠ indentDist then [cur] else []
        let r := pfd_go dump fuel (i + 1) indentLev indentDist
          (indentSpaces indentDist ++ [':'])
        (flushed ++ r.1, (':', indentLev, indentDist) :: r.2)
      else
        let r := pfd_go dump fuel (i + 1) indentLev indentDist (cur ++ [c])
        (r.1, (c, indentLev, indentDist) :: r.2)

/-- Sufficient fuel for pfd_go: every step either consumes a character or
is a width-bound flush immediately followed by a consuming step. -/
def pfdFuel (dump : List Char) : Nat := 2 * dump.length + 2

/-- The full run of pretty_format_node_dump from the initial state
(print.c lines 244 to 247). -/
def pfd_run (dump : List Char) : List (List Char) × List (Char × Int × Int) :=
  pfd_go dump (pfdFuel dump) 0 0 0 []

/-- pretty_format_node_dump (print.c lines 231 to 328): the emitted lines
in order, each without its terminating newline. -/
def pretty_format_node_dump (dump : List Char) : List (List Char) :=
  (pfd_run dump).1

/-- The sequence of (indentLev, indentDist) pairs attained during a run of
pretty_format_node_dump: the initial state followed by the state after
each consumed character. -/
def pfd_states (dump : List Char) : List (Int × Int) :=
  (0, 0) :: (pfd_run dump).2.map (fun e => (e.2.1, e.2.2))

/-- Whitespace for token splitting: space or newline. -/
def isWS (c : Char) : Bool := c = ' ' || c = '\n'

/-- Emitting the accumulated (reversed) token, if non-empty. -/
def flushAcc (acc : List Char) : List (List Char) :=
  if acc.isEmpty then [] else [acc.reverse]

/-- Token splitter worker: acc holds the current token reversed. -/
def wsTokensAux : List Char → List Char → List (List Char)
  | acc, [] => flushAcc acc
  | acc, c :: cs =>
    if isWS c then flushAcc acc ++ wsTokensAux [] cs
    else wsTokensAux (c :: acc) cs

/-- The tokens of a text: maximal runs of non-whitespace characters. -/
def wsTokens (s : List Char) : List (List Char) := wsTokensAux [] s

/-- The text a caller receives: every line followed by a newline, as
appendStringInfo with a trailing newline produces it (print.c line 213). -/
def emitText (ls : List (List Char)) : List Char :=
  (ls.map (fun l => l ++ ['\n'])).flatten

/-- Reconstruction of the input from the annotated lines of
format_node_dump: a break at a space consumed exactly one separating
space, a hard break and the final flush consumed nothing. -/
def glue : List (List Char × BreakKind) → List Char
  | [] => []
  | (l, bk) :: rest =>
    l ++ (if bk = BreakKind.spaceBreak ∨ bk = BreakKind.scanBreak then [' '] else []) ++
      glue rest

/-- Re-reading a line list as one text with every inserted line break
turned into a space. -/
def breaksToSpaces : List (List Char) → List Char
  | [] => []
  | [l] => l
  | l :: l2 :: rest => l ++ ' ' :: breaksToSpaces (l2 :: rest)

/-- The five marker characters of the structural pretty printer. -/
def isMarker (c : Char) : Bool := c = '{' || c = '}' || c = '(' || c = ')' || c = ':'

/-- The nesting-depth value attained at each marker character of a text,
mirroring the indentLev updates of pretty_format_node_dump: an open-block
increments, a close-block decrements clamped at zero, the other markers
leave the level unchanged. -/
def nestSeq (lev : Int) : List Char → List Int
  | [] => []
  | c :: cs =>
    if c = '{' then (lev + 1) :: nestSeq (lev + 1) cs
    else if c = '}' then outLev lev :: nestSeq (outLev lev) cs
    else if isMarker c then lev :: nestSeq lev cs
    else nestSeq lev cs

/-- Projecting a trace entry to its depth value when the consumed
character is a marker. -/
def dproj (e : Char × Int × Int) : Option Int :=
  if isMarker e.1 then some e.2.1 else none

/-- The nesting-depth sequence a run of pretty_format_node_dump attains at
the marker characters of its input. -/
def pfd_depthSeq (s : List Char) : List Int := (pfd_run s).2.filterMap dproj

/-- The close-group adjacency relation on neighbouring characters of an
output line: a close-group is followed only by another close-group. -/
def Rcg (a b : Char) : Prop := a = ')' → b = ')'

/-- The reachable-state invariant of pretty_format_node_dump: the indent
level is non-negative, the indent distance is its capped physical image,
the buffer holds at least the indent prefill (which is all spaces), never
exceeds LINELEN, satisfies close-group adjacency, and ends in a
close-group only if the next input character closed a group. -/
def PInv (dump : List Char) (i : Nat) (lev dist : Int) (cur : List Char) : Prop :=
  0 ≤ lev ∧ dist = min (lev * INDENTSTOP) MAXINDENT ∧
  dist.toNat ≤ cur.length ∧ cur.length ≤ LINELEN ∧
  cur.take dist.toNat = List.replicate dist.toNat ' ' ∧
  List.Chain' Rcg cur ∧ (cur.getLast? = some ')' → chAt dump i = ')')

/-- Termination measure for pfd_go: twice the remaining input, plus one
when the buffer is due for a width-bound flush. -/
def pfdMeasure (dump : List Char) (i : Nat) (cur : List Char) : Nat :=
  2 * (dump.length - i) + (if LINELEN ≤ cur.length then 1 else 0)

/-! ## Basic helper lemmas -/

theorem drop_eq_chAt_cons :
    ∀ (dump : List Char) (i : Nat), i < dump.length →
      dump.drop i = chAt dump i :: dump.drop (i + 1)
  | c :: cs, 0, _ => rfl
  | c :: cs, i + 1, h => by
    have ih := drop_eq_chAt_cons cs i (by simpa using h)
    simpa [chAt] using ih

theorem notSpace_space : notSpace ' ' = false := rfl

theorem filter_replicate_space : ∀ n : Nat, (List.replicate n ' ').filter notSpace = []
  | 0 => rfl
  | n + 1 => by
    simpa [List.replicate_succ, List.filter_cons, notSpace] using filter_replicate_space n

theorem filter_indentSpaces (d : Int) : (indentSpaces d).filter notSpace = [] :=
  filter_replicate_space d.toNat

theorem chain'_of_all_not_close : ∀ {l : List Char}, (∀ x ∈ l, ¬x = ')') → List.Chain' Rcg l
  | [], _ => List.chain'_nil
  | x :: xs, h => by
    rw [List.chain'_cons']
    refine ⟨fun y _ hx => absurd hx (h x (by simp)), ?_⟩
    exact chain'_of_all_not_close (fun z hz => h z (by simp [hz]))

theorem chain'_indentSpaces (d : Int) : List.Chain' Rcg (indentSpaces d) := by
  apply chain'_of_all_not_close
  intro x hx
  rw [indentSpaces] at hx
  rw [List.eq_of_mem_replicate hx]
  decide

theorem getLast?_indentSpaces_ne_close (d : Int) : ¬(indentSpaces d).getLast? = some ')' := by
  rw [indentSpaces, List.getLast?_replicate]
  split <;> simp

theorem take_indentSpaces_append (d : Int) (l : List Char) :
    (indentSpaces d ++ l).take d.toNat = List.replicate d.toNat ' ' := by
  rw [List.take_append_of_le_length (by simp [indentSpaces]), indentSpaces,
    List.take_replicate, min_self]

theorem length_indentSpaces (d : Int) : (indentSpaces d).length = d.toNat := by
  simp [indentSpaces]

theorem scanBack_le (line : List Char) : ∀ m, scanBack line m ≤ m
  | 0 => le_refl 0
  | m + 1 => by
    rw [scanBack]
    split
    · exact le_refl _
    · exact le_trans (scanBack_le line m) (by omega)

theorem scanBack_space (line : List Char) :
    ∀ m, 0 < scanBack line m → line.getD (scanBack line m) nulChar = ' '
  | 0, h => absurd h (by simp [scanBack])
  | m + 1, h => by
    by_cases hsp : line.getD (m + 1) nulChar = ' '
    · rw [scanBack, if_pos hsp]
      exact hsp
    · rw [scanBack, if_neg hsp] at h ⊢
      exact scanBack_space line m h

theorem scanBack_zero (line : List Char) :
    ∀ m, scanBack line m = 0 → ∀ t, 1 ≤ t → t ≤ m → ¬line.getD t nulChar = ' '
  | 0, _, _, h1, h2 => absurd h2 (by omega)
  | m + 1, h, t, h1, h2 => by
    by_cases hsp : line.getD (m + 1) nulChar = ' '
    · rw [scanBack, if_pos hsp] at h
      omega
    · rw [scanBack, if_neg hsp] at h
      rcases Nat.lt_or_ge t (m + 1) with hlt | hge
      · exact scanBack_zero line m h t h1 (by omega)
      · have ht : t = m + 1 := by omega
        subst ht
        exact hsp

theorem filter_drop_leadSpaces :
    ∀ s : List Char, (s.drop (leadSpaces s)).filter notSpace = s.filter notSpace
  | [] => rfl
  | c :: cs => by
    by_cases hc : c = ' '
    · subst hc
      rw [leadSpaces, if_pos rfl, List.drop_succ_cons,
        filter_drop_leadSpaces cs, List.filter_cons, notSpace_space]
      simp
    · rw [leadSpaces, if_neg hc, List.drop_zero]

theorem filter_drop_skipSp (dump : List Char) (m : Nat) :
    (dump.drop (skipSp dump m)).filter notSpace = (dump.drop m).filter notSpace := by
  rw [skipSp, ← List.drop_drop, filter_drop_leadSpaces]

theorem skipSp_ge (dump : List Char) (m : Nat) : m ≤ skipSp dump m :=
  Nat.le_add_right m _

theorem nestSeq_space (lev : Int) (cs : List Char) : nestSeq lev (' ' :: cs) = nestSeq lev cs := by
  rw [nestSeq, if_neg (by decide), if_neg (by decide), if_neg (by decide)]

theorem nestSeq_drop_leadSpaces (lev : Int) :
    ∀ s : List Char, nestSeq lev (s.drop (leadSpaces s)) = nestSeq lev s
  | [] => rfl
  | c :: cs => by
    by_cases hc : c = ' '
    · subst hc
      rw [leadSpaces, if_pos rfl, List.drop_succ_cons, nestSeq_drop_leadSpaces lev cs,
        nestSeq_space]
    · rw [leadSpaces, if_neg hc, List.drop_zero]

theorem nestSeq_drop_skipSp (lev : Int) (dump : List Char) (m : Nat) :
    nestSeq lev (dump.drop (skipSp dump m)) = nestSeq lev (dump.drop m) := by
  rw [skipSp, ← List.drop_drop, nestSeq_drop_leadSpaces]

/-! ## format_node_dump: unfolding and environment facts -/

theorem fnd_go_step (dump : List Char) (fuel i : Nat) :
    fnd_go dump (fuel + 1) i =
      if dump.length ≤ i + min LINELEN (dump.length - i) then
        (if 0 < min LINELEN (dump.length - i) then
          [((dump.drop i).take LINELEN, BreakKind.last)] else [])
      else if chAt dump (i + min LINELEN (dump.length - i)) = ' ' then
        ((dump.drop i).take LINELEN, BreakKind.spaceBreak) ::
          fnd_go dump fuel (i + min LINELEN (dump.length - i) + 1)
      else if 0 < scanBack ((dump.drop i).take LINELEN) (min LINELEN (dump.length - i) - 1) then
        (((dump.drop i).take LINELEN).take
            (scanBack ((dump.drop i).take LINELEN) (min LINELEN (dump.length - i) - 1)),
          BreakKind.scanBreak) ::
          fnd_go dump fuel
            (i + scanBack ((dump.drop i).take LINELEN) (min LINELEN (dump.length - i) - 1) + 1)
      else ((dump.drop i).take LINELEN, BreakKind.hardBreak) ::
        fnd_go dump fuel (i + min LINELEN (dump.length - i)) := rfl

theorem fnd_not_end {dump : List Char} {i : Nat}
    (h : ¬dump.length ≤ i + min LINELEN (dump.length - i)) :
    min LINELEN (dump.length - i) = LINELEN ∧ i + LINELEN < dump.length := by
  rcases min_choice LINELEN (dump.length - i) with hm | hm <;> rw [hm] at h ⊢ <;> omega

theorem fnd_end_len {dump : List Char} {i : Nat}
    (h : dump.length ≤ i + min LINELEN (dump.length - i)) :
    dump.length - i ≤ LINELEN := by
  rcases min_choice LINELEN (dump.length - i) with hm | hm <;> rw [hm] at h <;> omega

theorem line_getD_eq_chAt (dump : List Char) (i t : Nat) (ht : t < LINELEN) :
    ((dump.drop i).take LINELEN).getD t nulChar = chAt dump (i + t) := by
  rw [chAt, List.getD_eq_getElem?_getD, List.getD_eq_getElem?_getD,
    List.getElem?_take, if_pos ht, List.getElem?_drop]

theorem take_line_eq (dump : List Char) (i t : Nat) (ht : t ≤ LINELEN) :
    ((dump.drop i).take LINELEN).take t = (dump.drop i).take t := by
  rw [List.take_take, Nat.min_eq_left ht]

theorem drop_split_at (dump : List Char) (i t : Nat)
    (hlen : i + t < dump.length) :
    dump.drop i = (dump.drop i).take t ++ chAt dump (i + t) :: dump.drop (i + t + 1) := by
  have h2 : (dump.drop i).drop t = dump.drop (i + t) := by
    rw [List.drop_drop]
  have h3 : dump.drop (i + t) = chAt dump (i + t) :: dump.drop (i + t + 1) :=
    drop_eq_chAt_cons dump (i + t) hlen
  calc dump.drop i = (dump.drop i).take t ++ (dump.drop i).drop t := (List.take_append_drop t _).symm
    _ = (dump.drop i).take t ++ chAt dump (i + t) :: dump.drop (i + t + 1) := by rw [h2, h3]

theorem line_full (dump : List Char) (i : Nat) (h : i + LINELEN ≤ dump.length) :
    dump.drop i = (dump.drop i).take LINELEN ++ dump.drop (i + LINELEN) := by
  have h2 : (dump.drop i).drop LINELEN = dump.drop (i + LINELEN) := by
    rw [List.drop_drop]
  calc dump.drop i
      = (dump.drop i).take LINELEN ++ (dump.drop i).drop LINELEN :=
        (List.take_append_drop LINELEN _).symm
    _ = (dump.drop i).take LINELEN ++ dump.drop (i + LINELEN) := by rw [h2]

/-! ## format_node_dump: fuel irrelevance, line bounds, reconstruction -/

theorem fnd_go_fuel (dump : List Char) :
    ∀ f1 f2 i, dump.length - i < f1 → dump.length - i < f2 →
      fnd_go dump f1 i = fnd_go dump f2 i
  | f1 + 1, f2 + 1, i, h1, h2 => by
    have hL : LINELEN = 78 := rfl
    rw [fnd_go_step, fnd_go_step]
    by_cases hend : dump.length ≤ i + min LINELEN (dump.length - i)
    · rw [if_pos hend, if_pos hend]
    · obtain ⟨hj, hlen⟩ := fnd_not_end hend
      rw [if_neg hend, if_neg hend, hj]
      by_cases hsp : chAt dump (i + LINELEN) = ' '
      · rw [if_pos hsp, if_pos hsp,
          fnd_go_fuel dump f1 f2 (i + LINELEN + 1) (by omega) (by omega)]
      · rw [if_neg hsp, if_neg hsp]
        by_cases hk : 0 < scanBack ((dump.drop i).take LINELEN) (LINELEN - 1)
        · have hkle := scanBack_le ((dump.drop i).take LINELEN) (LINELEN - 1)
          rw [if_pos hk, if_pos hk, fnd_go_fuel dump f1 f2
            (i + scanBack ((dump.drop i).take LINELEN) (LINELEN - 1) + 1) (by omega) (by omega)]
        · rw [if_neg hk, if_neg hk,
            fnd_go_fuel dump f1 f2 (i + LINELEN) (by omega) (by omega)]

theorem fnd_lines_le (dump : List Char) :
    ∀ fuel i, ∀ p ∈ fnd_go dump fuel i, p.1.length ≤ LINELEN
  | fuel + 1, i, p, hp => by
    rw [fnd_go_step] at hp
    have hlt : ((dump.drop i).take LINELEN).length ≤ LINELEN := by
      rw [List.length_take]; omega
    split at hp
    · split at hp
      · rcases List.mem_singleton.mp hp with rfl
        exact hlt
      · exact absurd hp (List.not_mem_nil p)
    · split at hp
      · rcases List.mem_cons.mp hp with rfl | hp
        · exact hlt
        · exact fnd_lines_le dump fuel _ p hp
      · split at hp
        · rcases List.mem_cons.mp hp with rfl | hp
          · rw [List.length_take]
            exact le_trans (Nat.min_le_right _ _) hlt
          · exact fnd_lines_le dump fuel _ p hp
        · rcases List.mem_cons.mp hp with rfl | hp
          · exact hlt
          · exact fnd_lines_le dump fuel _ p hp

theorem fnd_glue (dump : List Char) :
    ∀ fuel i, dump.length - i < fuel → glue (fnd_go dump fuel i) = dump.drop i
  | fuel + 1, i, hf => by
    have hL : LINELEN = 78 := rfl
    rw [fnd_go_step]
    by_cases hend : dump.length ≤ i + min LINELEN (dump.length - i)
    · rw [if_pos hend]
      have hle : dump.length - i ≤ LINELEN := fnd_end_len hend
      split
      · rw [glue, glue]
        have hli : (dump.drop i).take LINELEN = dump.drop i :=
          List.take_of_length_le (by rw [List.length_drop]; omega)
        simp [hli]
      · have hnil : dump.drop i = [] := List.drop_eq_nil_of_le (by omega)
        rw [glue, hnil]
    · obtain ⟨hj, hlen⟩ := fnd_not_end hend
      rw [if_neg hend, hj]
      by_cases hsp : chAt dump (i + LINELEN) = ' '
      · rw [if_pos hsp, glue, fnd_glue dump fuel (i + LINELEN + 1) (by omega)]
        conv_rhs => rw [drop_split_at dump i LINELEN hlen]
        rw [hsp]
        simp
      · rw [if_neg hsp]
        by_cases hk : 0 < scanBack ((dump.drop i).take LINELEN) (LINELEN - 1)
        · have hkle := scanBack_le ((dump.drop i).take LINELEN) (LINELEN - 1)
          have hksp := scanBack_space ((dump.drop i).take LINELEN) (LINELEN - 1) hk
          rw [if_pos hk, glue, fnd_glue dump fuel _ (by omega)]
          rw [line_getD_eq_chAt dump i _ (by omega)] at hksp
          conv_rhs => rw [drop_split_at dump i
            (scanBack ((dump.drop i).take LINELEN) (LINELEN - 1)) (by omega)]
          rw [hksp, take_line_eq dump i _ (by omega)]
          simp
        · rw [if_neg hk, glue, fnd_glue dump fuel (i + LINELEN) (by omega)]
          conv_rhs => rw [line_full dump i (by omega)]
          simp

theorem fnd_hard_window (dump : List Char) :
    ∀ fuel i, ∀ p ∈ fnd_go dump fuel i, p.2 = BreakKind.hardBreak →
      ∃ m, m + LINELEN ≤ dump.length ∧ ∀ t, t < LINELEN → ¬chAt dump (m + t) = ' '
  | fuel + 1, i, p, hp, hhard => by
    have hL : LINELEN = 78 := rfl
    rw [fnd_go_step] at hp
    split at hp
    · split at hp
      · rcases List.mem_singleton.mp hp with rfl
        simp at hhard
      · exact absurd hp (List.not_mem_nil p)
    · rename_i hend
      obtain ⟨hj, hlen⟩ := fnd_not_end hend
      rw [hj] at hp
      split at hp
      · rcases List.mem_cons.mp hp with rfl | hp
        · simp at hhard
        · exact fnd_hard_window dump fuel _ p hp hhard
      · split at hp
        · rcases List.mem_cons.mp hp with rfl | hp
          · simp at hhard
          · exact fnd_hard_window dump fuel _ p hp hhard
        · rcases List.mem_cons.mp hp with rfl | hp
          · rename_i hsp hk
            refine ⟨i + 1, by omega, ?_⟩
            intro t ht hspace
            rcases Nat.lt_or_ge t (LINELEN - 1) with ht2 | ht2
            · have hz : scanBack ((dump.drop i).take LINELEN) (LINELEN - 1) = 0 := by omega
              have := scanBack_zero ((dump.drop i).take LINELEN) (LINELEN - 1) hz
                (1 + t) (by omega) (by omega)
              rw [line_getD_eq_chAt dump i (1 + t) (by omega)] at this
              rw [show i + 1 + t = i + (1 + t) by omega] at hspace
              exact this hspace
            · have ht3 : t = LINELEN - 1 := by omega
              rw [ht3, show i + 1 + (LINELEN - 1) = i + LINELEN by
                have : 0 < LINELEN := by norm_num [LINELEN]
                omega] at hspace
              exact hsp hspace
          · exact fnd_hard_window dump fuel _ p hp hhard

/-! ## Token splitting lemmas -/

theorem wsTokensAux_nil (acc : List Char) : wsTokensAux acc [] = flushAcc acc := rfl

theorem wsTokensAux_ws {w : Char} (hw : isWS w = true) (acc b : List Char) :
    wsTokensAux acc (w :: b) = flushAcc acc ++ wsTokensAux [] b := by
  rw [wsTokensAux, if_pos hw]

theorem wsTokensAux_append_ws {w : Char} (hw : isWS w = true) :
    ∀ (a acc : List Char), wsTokensAux acc (a ++ [w]) = wsTokensAux acc a
  | [], acc => by
    rw [List.nil_append, wsTokensAux_ws hw, wsTokensAux_nil, wsTokensAux_nil]
    simp [flushAcc]
  | c :: a, acc => by
    by_cases hc : isWS c
    · rw [List.cons_append, wsTokensAux_ws hc, wsTokensAux_ws hc,
        wsTokensAux_append_ws hw a []]
    · rw [List.cons_append, wsTokensAux, if_neg hc]
      conv_rhs => rw [wsTokensAux, if_neg hc]
      exact wsTokensAux_append_ws hw a (c :: acc)

theorem wsTokensAux_split {w : Char} (hw : isWS w = true) :
    ∀ (a acc b : List Char),
      wsTokensAux acc (a ++ w :: b) = wsTokensAux acc a ++ wsTokensAux [] b
  | [], acc, b => by
    rw [List.nil_append, wsTokensAux_ws hw, wsTokensAux_nil]
  | c :: a, acc, b => by
    by_cases hc : isWS c
    · rw [List.cons_append, wsTokensAux_ws hc, wsTokensAux_ws hc,
        wsTokensAux_split hw a [] b, List.append_assoc]
    · rw [List.cons_append, wsTokensAux, if_neg hc]
      conv_rhs => rw [wsTokensAux, if_neg hc]
      exact wsTokensAux_split hw a (c :: acc) b

theorem wsTokens_append_ws {w : Char} (hw : isWS w = true) (a : List Char) :
    wsTokens (a ++ [w]) = wsTokens a :=
  wsTokensAux_append_ws hw a []

theorem wsTokens_split {w : Char} (hw : isWS w = true) (a b : List Char) :
    wsTokens (a ++ w :: b) = wsTokens a ++ wsTokens b :=
  wsTokensAux_split hw a [] b

theorem emitText_cons (l : List Char) (ls : List (List Char)) :
    emitText (l :: ls) = l ++ '\n' :: emitText ls := by
  rw [emitText, List.map_cons, List.flatten_cons, List.append_assoc]
  rfl

/-! ## format_node_dump: token preservation for narrow-token inputs -/

theorem fnd_tokens (dump : List Char)
    (hwin : ∀ m, m + LINELEN ≤ dump.length → ∃ t, t < LINELEN ∧ chAt dump (m + t) = ' ') :
    ∀ fuel i, dump.length - i < fuel →
      wsTokens (emitText ((fnd_go dump fuel i).map Prod.fst)) = wsTokens (dump.drop i)
  | fuel + 1, i, hf => by
    have hL : LINELEN = 78 := rfl
    rw [fnd_go_step]
    by_cases hend : dump.length ≤ i + min LINELEN (dump.length - i)
    · rw [if_pos hend]
      have hle : dump.length - i ≤ LINELEN := fnd_end_len hend
      split
      · have hli : (dump.drop i).take LINELEN = dump.drop i :=
          List.take_of_length_le (by rw [List.length_drop]; omega)
        have he : emitText [] = [] := rfl
        simp only [List.map_cons, List.map_nil, emitText_cons, he]
        rw [wsTokens_append_ws (by decide), hli]
      · have hnil : dump.drop i = [] := List.drop_eq_nil_of_le (by omega)
        rw [hnil, List.map_nil]
        rfl
    · obtain ⟨hj, hlen⟩ := fnd_not_end hend
      rw [if_neg hend, hj]
      by_cases hsp : chAt dump (i + LINELEN) = ' '
      · rw [if_pos hsp, List.map_cons, emitText_cons,
          wsTokens_split (by decide), fnd_tokens dump hwin fuel (i + LINELEN + 1) (by omega)]
        conv_rhs => rw [drop_split_at dump i LINELEN hlen]
        rw [hsp, wsTokens_split (by decide)]
      · rw [if_neg hsp]
        by_cases hk : 0 < scanBack ((dump.drop i).take LINELEN) (LINELEN - 1)
        · have hkle := scanBack_le ((dump.drop i).take LINELEN) (LINELEN - 1)
          have hksp := scanBack_space ((dump.drop i).take LINELEN) (LINELEN - 1) hk
          rw [line_getD_eq_chAt dump i _ (by omega)] at hksp
          rw [if_pos hk, List.map_cons, emitText_cons,
            wsTokens_split (by decide), fnd_tokens dump hwin fuel _ (by omega)]
          conv_rhs => rw [drop_split_at dump i
            (scanBack ((dump.drop i).take LINELEN) (LINELEN - 1)) (by omega)]
          rw [hksp, wsTokens_split (by decide), take_line_eq dump i _ (by omega)]
        · exfalso
          obtain ⟨t, ht, hspace⟩ := hwin (i + 1) (by omega)
          rcases Nat.lt_or_ge t (LINELEN - 1) with ht2 | ht2
          · have hz : scanBack ((dump.drop i).take LINELEN) (LINELEN - 1) = 0 := by omega
            have hnosp := scanBack_zero ((dump.drop i).take LINELEN) (LINELEN - 1) hz
              (1 + t) (by omega) (by omega)
            rw [line_getD_eq_chAt dump i (1 + t) (by omega)] at hnosp
            rw [show i + 1 + t = i + (1 + t) by omega] at hspace
            exact hnosp hspace
          · have ht3 : t = LINELEN - 1 := by omega
            rw [ht3, show i + 1 + (LINELEN - 1) = i + LINELEN by omega] at hspace
            exact hsp hspace

/-! ## pretty_format_node_dump: unfolding and state lemmas -/

theorem pfd_go_step (dump : List Char) (fuel i : Nat) (lev dist : Int) (cur : List Char) :
    pfd_go dump (fuel + 1) i lev dist cur =
      if dump.length ≤ i then (if 0 < cur.length then [cur] else [], [])
      else if LINELEN ≤ cur.length then
        (cur :: (pfd_go dump fuel i lev dist (indentSpaces dist)).1,
          (pfd_go dump fuel i lev dist (indentSpaces dist)).2)
      else if chAt dump i = '}' then
        ((if (cur.length : Int) ≠ dist then [cur] else []) ++
            (indentSpaces dist ++ ['}']) ::
              (pfd_go dump fuel (skipSp dump (i + 1)) (outLev lev) (outDist lev dist)
                (indentSpaces (outDist lev dist))).1,
          ('}', outLev lev, outDist lev dist) ::
            (pfd_go dump fuel (skipSp dump (i + 1)) (outLev lev) (outDist lev dist)
              (indentSpaces (outDist lev dist))).2)
      else if chAt dump i = ')' then
        (if chAt dump (i + 1) ≠ ')' then
          ((cur ++ [')']) ::
              (pfd_go dump fuel (skipSp dump (i + 1)) lev dist (indentSpaces dist)).1,
            (')', lev, dist) ::
              (pfd_go dump fuel (skipSp dump (i + 1)) lev dist (indentSpaces dist)).2)
        else
          ((pfd_go dump fuel (i + 1) lev dist (cur ++ [')'])).1,
            (')', lev, dist) :: (pfd_go dump fuel (i + 1) lev dist (cur ++ [')'])).2))
      else if chAt dump i = '{' then
        ((if (cur.length : Int) ≠ dist then [cur] else []) ++
            (pfd_go dump fuel (i + 1) (lev + 1) (inDist lev)
              (indentSpaces (inDist lev) ++ ['{'])).1,
          ('{', lev + 1, inDist lev) ::
            (pfd_go dump fuel (i + 1) (lev + 1) (inDist lev)
              (indentSpaces (inDist lev) ++ ['{'])).2)
      else if chAt dump i = ':' then
        ((if (cur.length : Int) ≠ dist then [cur] else []) ++
            (pfd_go dump fuel (i + 1) lev dist (indentSpaces dist ++ [':'])).1,
          (':', lev, dist) ::
            (pfd_go dump fuel (i + 1) lev dist (indentSpaces dist ++ [':'])).2)
      else
        ((pfd_go dump fuel (i + 1) lev dist (cur ++ [chAt dump i])).1,
          (chAt dump i, lev, dist) ::
            (pfd_go dump fuel (i + 1) lev dist (cur ++ [chAt dump i])).2) := rfl

theorem indentDist_nonneg {lev dist : Int} (hlev : 0 ≤ lev)
    (hd : dist = min (lev * INDENTSTOP) MAXINDENT) : 0 ≤ dist := by
  rw [hd, INDENTSTOP, MAXINDENT]
  have : 0 ≤ lev * 3 := by positivity
  omega

theorem indentDist_le_max {lev dist : Int} (hd : dist = min (lev * INDENTSTOP) MAXINDENT) :
    dist ≤ MAXINDENT := by
  rw [hd]
  exact min_le_right _ _

theorem indentDist_toNat_le {lev dist : Int} (hlev : 0 ≤ lev)
    (hd : dist = min (lev * INDENTSTOP) MAXINDENT) : dist.toNat ≤ 60 := by
  have h1 := indentDist_le_max hd
  rw [MAXINDENT] at h1
  omega

theorem outLev_nonneg {lev : Int} (h : 0 ≤ lev) : 0 ≤ outLev lev := by
  rw [outLev]
  split <;> omega

theorem outDist_formula {lev dist : Int} (hlev : 0 ≤ lev)
    (hd : dist = min (lev * INDENTSTOP) MAXINDENT) :
    outDist lev dist = min (outLev lev * INDENTSTOP) MAXINDENT := by
  rw [outDist, outLev]
  split
  · rfl
  · have hz : lev = 0 := by omega
    rw [hd, hz]

theorem inDist_formula (lev : Int) : inDist lev = min ((lev + 1) * INDENTSTOP) MAXINDENT := rfl

theorem chain'_spaces_concat {x : Char} (d : Int) (hx : ¬x = ')') :
    List.Chain' Rcg (indentSpaces d ++ [x]) := by
  apply chain'_of_all_not_close
  intro y hy
  rcases List.mem_append.mp hy with hy | hy
  · rw [indentSpaces] at hy
    rw [List.eq_of_mem_replicate hy]
    decide
  · rw [List.mem_singleton.mp hy]
    exact hx

theorem PInv_spaces (dump : List Char) (i : Nat) {lev dist : Int}
    (hlev : 0 ≤ lev) (hd : dist = min (lev * INDENTSTOP) MAXINDENT) :
    PInv dump i lev dist (indentSpaces dist) := by
  have hdt := indentDist_toNat_le hlev hd
  refine ⟨hlev, hd, ?_, ?_, ?_, chain'_indentSpaces dist, ?_⟩
  · rw [length_indentSpaces]
  · rw [length_indentSpaces, LINELEN]
    omega
  · rw [indentSpaces, List.take_replicate, min_self]
  · intro h
    exact absurd h (getLast?_indentSpaces_ne_close dist)

theorem PInv_spaces_concat (dump : List Char) (i : Nat) {lev dist : Int} {x : Char}
    (hx : ¬x = ')') (hlev : 0 ≤ lev) (hd : dist = min (lev * INDENTSTOP) MAXINDENT) :
    PInv dump i lev dist (indentSpaces dist ++ [x]) := by
  have hdt := indentDist_toNat_le hlev hd
  refine ⟨hlev, hd, ?_, ?_, take_indentSpaces_append dist [x], chain'_spaces_concat dist hx, ?_⟩
  · rw [List.length_append, length_indentSpaces]
    omega
  · rw [List.length_append, length_indentSpaces, LINELEN]
    simp
    omega
  · rw [List.getLast?_concat]
    intro h
    exact absurd (Option.some_injective _ h) hx

theorem PInv_append_char (dump : List Char) {i : Nat} {lev dist : Int} {cur : List Char}
    (c : Char) (hinv : PInv dump i lev dist cur) (hlen : cur.length < LINELEN)
    (hlast : cur.getLast? = some ')' → c = ')')
    (hnext : c = ')' → chAt dump (i + 1) = ')') :
    PInv dump (i + 1) lev dist (cur ++ [c]) := by
  obtain ⟨hlev, hd, hdle, hcle, htake, hchain, _⟩ := hinv
  refine ⟨hlev, hd, ?_, ?_, ?_, ?_, ?_⟩
  · rw [List.length_append]
    omega
  · rw [List.length_append]
    simpa using hlen
  · rw [List.take_append_of_le_length hdle, htake]
  · rw [List.chain'_append]
    refine ⟨hchain, List.chain'_singleton c, ?_⟩
    intro x hx y hy hxc
    have hx' : cur.getLast? = some x := hx
    have hy' : c = y := by simpa using hy
    rw [← hy']
    exact hlast (by rw [hx', hxc])
  · rw [List.getLast?_concat]
    intro h
    exact hnext (Option.some_injective _ h)

theorem cur_eq_spaces {dist : Int} {cur : List Char} (hd0 : 0 ≤ dist)
    (hdle : dist.toNat ≤ cur.length)
    (htake : cur.take dist.toNat = List.replicate dist.toNat ' ')
    (hfl : ¬(cur.length : Int) ≠ dist) : cur = indentSpaces dist := by
  have he : (cur.length : Int) = dist := not_not.mp hfl
  have hn : cur.length = dist.toNat := by omega
  rw [indentSpaces, ← htake, ← hn]
  simp

theorem flush_pos {dist : Int} {cur : List Char} (hd0 : 0 ≤ dist)
    (hdle : dist.toNat ≤ cur.length) (hne : (cur.length : Int) ≠ dist) : 0 < cur.length := by
  omega

theorem pfdMeasure_ge (dump : List Char) (i : Nat) (cur : List Char) :
    2 * (dump.length - i) ≤ pfdMeasure dump i cur := by
  rw [pfdMeasure]
  split <;> omega

theorem pfdMeasure_le (dump : List Char) (i : Nat) (cur : List Char) :
    pfdMeasure dump i cur ≤ 2 * (dump.length - i) + 1 := by
  rw [pfdMeasure]
  split <;> omega

theorem pfdMeasure_small (dump : List Char) (i : Nat) {cur : List Char}
    (h : cur.length < LINELEN) : pfdMeasure dump i cur = 2 * (dump.length - i) := by
  rw [pfdMeasure, if_neg (by omega)]
  omega

theorem filter_close : List.filter notSpace ['}'] = ['}'] := rfl

theorem filter_open : List.filter notSpace ['{'] = ['{'] := rfl

theorem filter_closeGroup : List.filter notSpace [')'] = [')'] := rfl

theorem filter_colon : List.filter notSpace [':'] = [':'] := rfl

theorem filter_cons_true {c : Char} (hc : notSpace c = true) (l : List Char) :
    (c :: l).filter notSpace = c :: l.filter notSpace := by
  rw [List.filter_cons, if_pos hc]

theorem dproj_marker {c : Char} (hm : isMarker c = true) (a b : Int) :
    dproj (c, a, b) = some a := by
  show (if isMarker c = true then some a else none) = some a
  rw [if_pos hm]

theorem dproj_nonmarker {c : Char} (hm : ¬isMarker c = true) (a b : Int) :
    dproj (c, a, b) = none := by
  show (if isMarker c = true then some a else none) = none
  rw [if_neg hm]

theorem filterMap_dproj_marker {c : Char} (hm : isMarker c = true) (a b : Int)
    (tl : List (Char × Int × Int)) :
    List.filterMap dproj ((c, a, b) :: tl) = a :: List.filterMap dproj tl := by
  rw [List.filterMap_cons, dproj_marker hm]

theorem filterMap_dproj_other {c : Char} (hm : ¬isMarker c = true) (a b : Int)
    (tl : List (Char × Int × Int)) :
    List.filterMap dproj ((c, a, b) :: tl) = List.filterMap dproj tl := by
  rw [List.filterMap_cons, dproj_nonmarker hm]

theorem nestSeq_close (lev : Int) (cs : List Char) :
    nestSeq lev ('}' :: cs) = outLev lev :: nestSeq (outLev lev) cs := by
  rw [nestSeq, if_neg (by decide), if_pos rfl]

theorem nestSeq_open (lev : Int) (cs : List Char) :
    nestSeq lev ('{' :: cs) = (lev + 1) :: nestSeq (lev + 1) cs := by
  rw [nestSeq, if_pos rfl]

theorem nestSeq_marker {c : Char} (hc1 : ¬c = '{') (hc2 : ¬c = '}')
    (hm : isMarker c = true) (lev : Int) (cs : List Char) :
    nestSeq lev (c :: cs) = lev :: nestSeq lev cs := by
  rw [nestSeq, if_neg hc1, if_neg hc2, if_pos hm]

theorem nestSeq_other {c : Char} (hc1 : ¬c = '{') (hc2 : ¬c = '}')
    (hm : ¬isMarker c = true) (lev : Int) (cs : List Char) :
    nestSeq lev (c :: cs) = nestSeq lev cs := by
  rw [nestSeq, if_neg hc1, if_neg hc2, if_neg hm]

theorem pfdMeasure_spaces (dump : List Char) (i' : Nat) {lev' dist' : Int} (hlev' : 0 ≤ lev')
    (hd' : dist' = min (lev' * INDENTSTOP) MAXINDENT) :
    pfdMeasure dump i' (indentSpaces dist') = 2 * (dump.length - i') := by
  have hdt := indentDist_toNat_le hlev' hd'
  apply pfdMeasure_small
  rw [length_indentSpaces, LINELEN]
  omega

theorem pfdMeasure_spaces_concat (dump : List Char) (i' : Nat) {lev' dist' : Int} (x : Char)
    (hlev' : 0 ≤ lev') (hd' : dist' = min (lev' * INDENTSTOP) MAXINDENT) :
    pfdMeasure dump i' (indentSpaces dist' ++ [x]) = 2 * (dump.length - i') := by
  have hdt := indentDist_toNat_le hlev' hd'
  apply pfdMeasure_small
  rw [List.length_append, length_indentSpaces, List.length_singleton, LINELEN]
  omega

/-- Master run lemma for pretty_format_node_dump: from any state satisfying
the reachable-state invariant, with sufficient fuel, every emitted line is
non-empty, at most LINELEN long and close-group adjacent; every traced
state has a non-negative level with the capped distance; the non-space
characters of the output are the buffer's followed by the remaining
input's; and the depth values traced at marker characters are the nesting
sequence of the remaining input. -/
theorem pfd_master (dump : List Char) :
    ∀ fuel i lev dist cur, PInv dump i lev dist cur → pfdMeasure dump i cur < fuel →
      (∀ l ∈ (pfd_go dump fuel i lev dist cur).1,
          0 < l.length ∧ l.length ≤ LINELEN ∧ List.Chain' Rcg l) ∧
      (∀ s ∈ (pfd_go dump fuel i lev dist cur).2,
          0 ≤ s.2.1 ∧ s.2.2 = min (s.2.1 * INDENTSTOP) MAXINDENT) ∧
      (pfd_go dump fuel i lev dist cur).1.flatten.filter notSpace =
        cur.filter notSpace ++ (dump.drop i).filter notSpace ∧
      (pfd_go dump fuel i lev dist cur).2.filterMap dproj = nestSeq lev (dump.drop i)
  | fuel + 1, i, lev, dist, cur, hinv, hμ => by
    obtain ⟨hlev, hd, hdle, hcle, htake, hchain, hlast⟩ := hinv
    have hL : LINELEN = 78 := rfl
    have hd0 : 0 ≤ dist := indentDist_nonneg hlev hd
    have hdt : dist.toNat ≤ 60 := indentDist_toNat_le hlev hd
    rw [pfd_go_step]
    by_cases hend : dump.length ≤ i
    · rw [if_pos hend]
      dsimp only
      have hdrop : dump.drop i = [] := List.drop_eq_nil_of_le hend
      refine ⟨?_, ?_, ?_, ?_⟩
      · intro l hl
        split at hl
        · rename_i hpos
          rcases List.mem_singleton.mp hl with rfl
          exact ⟨hpos, hcle, hchain⟩
        · exact absurd hl (List.not_mem_nil l)
      · intro s hs
        exact absurd hs (List.not_mem_nil s)
      · rw [hdrop]
        split
        · simp
        · rename_i hz
          have hcur : cur = [] := List.length_eq_zero.mp (by omega)
          simp [hcur]
      · rw [hdrop]
        rfl
    · have hi : i < dump.length := Nat.lt_of_not_le hend
      rw [if_neg hend]
      by_cases hw : LINELEN ≤ cur.length
      · rw [if_pos hw]
        dsimp only
        have hμc : pfdMeasure dump i cur = 2 * (dump.length - i) + 1 := by
          rw [pfdMeasure, if_pos hw]
        obtain ⟨I1, I2, I3, I4⟩ := pfd_master dump fuel i lev dist (indentSpaces dist)
          (PInv_spaces dump i hlev hd)
          (by rw [pfdMeasure_spaces dump i hlev hd]; omega)
        refine ⟨?_, I2, ?_, I4⟩
        · intro l hl
          rcases List.mem_cons.mp hl with rfl | hl
          · exact ⟨by omega, hcle, hchain⟩
          · exact I1 l hl
        · rw [List.flatten_cons, List.filter_append, I3, filter_indentSpaces, List.nil_append]
      · rw [if_neg hw]
        have hsmall : cur.length < LINELEN := by omega
        have hμc : pfdMeasure dump i cur = 2 * (dump.length - i) :=
          pfdMeasure_small dump i hsmall
        by_cases hc1 : chAt dump i = '}'
        · rw [if_pos hc1]
          dsimp only
          have hlev2 : 0 ≤ outLev lev := outLev_nonneg hlev
          have hd2 : outDist lev dist = min (outLev lev * INDENTSTOP) MAXINDENT :=
            outDist_formula hlev hd
          have hdt2 : (outDist lev dist).toNat ≤ 60 := indentDist_toNat_le hlev2 hd2
          have hsk : i + 1 ≤ skipSp dump (i + 1) := skipSp_ge dump (i + 1)
          obtain ⟨I1, I2, I3, I4⟩ := pfd_master dump fuel (skipSp dump (i + 1)) (outLev lev)
            (outDist lev dist) (indentSpaces (outDist lev dist))
            (PInv_spaces dump _ hlev2 hd2)
            (by rw [pfdMeasure_spaces dump _ hlev2 hd2]; omega)
          refine ⟨?_, ?_, ?_, ?_⟩
          · intro l hl
            rcases List.mem_append.mp hl with hl | hl
            · split at hl
              · rename_i hfl
                rcases List.mem_singleton.mp hl with rfl
                exact ⟨flush_pos hd0 hdle hfl, by omega, hchain⟩
              · exact absurd hl (List.not_mem_nil l)
            · rcases List.mem_cons.mp hl with rfl | hl
              · refine ⟨?_, ?_, chain'_spaces_concat dist (by decide)⟩
                · rw [List.length_append, length_indentSpaces, List.length_singleton]
                  omega
                · rw [List.length_append, length_indentSpaces, List.length_singleton]
                  omega
              · exact I1 l hl
          · intro s hs
            rcases List.mem_cons.mp hs with rfl | hs
            · exact ⟨hlev2, hd2⟩
            · exact I2 s hs
          · by_cases hfl : (cur.length : Int) ≠ dist
            · rw [if_pos hfl]
              simp only [List.flatten_append, List.flatten_cons, List.flatten_nil,
                List.filter_append, List.append_nil, List.nil_append, filter_indentSpaces,
                filter_close]
              rw [I3, filter_drop_skipSp dump (i + 1), filter_indentSpaces,
                drop_eq_chAt_cons dump i hi, hc1, filter_cons_true (by decide)]
              simp
            · rw [if_neg hfl]
              simp only [List.flatten_cons, List.filter_append, List.nil_append,
                filter_indentSpaces, filter_close]
              rw [I3, filter_drop_skipSp dump (i + 1), filter_indentSpaces,
                cur_eq_spaces hd0 hdle htake hfl, filter_indentSpaces,
                drop_eq_chAt_cons dump i hi, hc1, filter_cons_true (by decide)]
              simp
          · rw [filterMap_dproj_marker (by decide), I4, nestSeq_drop_skipSp,
              drop_eq_chAt_cons dump i hi, hc1, nestSeq_close]
        · rw [if_neg hc1]
          by_cases hc2 : chAt dump i = ')'
          · rw [if_pos hc2]
            by_cases hnx : chAt dump (i + 1) ≠ ')'
            · rw [if_pos hnx]
              dsimp only
              have hsk : i + 1 ≤ skipSp dump (i + 1) := skipSp_ge dump (i + 1)
              obtain ⟨I1, I2, I3, I4⟩ := pfd_master dump fuel (skipSp dump (i + 1)) lev dist
                (indentSpaces dist) (PInv_spaces dump _ hlev hd)
                (by rw [pfdMeasure_spaces dump _ hlev hd]; omega)
              refine ⟨?_, ?_, ?_, ?_⟩
              · intro l hl
                rcases List.mem_cons.mp hl with rfl | hl
                · refine ⟨?_, ?_, ?_⟩
                  · rw [List.length_append, List.length_singleton]
                    omega
                  · rw [List.length_append, List.length_singleton]
                    omega
                  · rw [List.chain'_append]
                    refine ⟨hchain, List.chain'_singleton _, ?_⟩
                    intro x hx y hy
                    have hy' : ')' = y := by simpa using hy
                    rw [← hy']
                    intro _
                    rfl
                · exact I1 l hl
              · intro s hs
                rcases List.mem_cons.mp hs with rfl | hs
                · exact ⟨hlev, hd⟩
                · exact I2 s hs
              · rw [List.flatten_cons, List.filter_append, List.filter_append, I3,
                  filter_drop_skipSp dump (i + 1), filter_indentSpaces, filter_closeGroup,
                  drop_eq_chAt_cons dump i hi, hc2, filter_cons_true (by decide)]
                simp
              · rw [filterMap_dproj_marker (by decide), I4, nestSeq_drop_skipSp,
                  drop_eq_chAt_cons dump i hi, hc2,
                  nestSeq_marker (by decide) (by decide) (by decide)]
            · rw [if_neg hnx]
              dsimp only
              have hnx' : chAt dump (i + 1) = ')' := not_not.mp hnx
              obtain ⟨I1, I2, I3, I4⟩ := pfd_master dump fuel (i + 1) lev dist (cur ++ [')'])
                (PInv_append_char dump ')' ⟨hlev, hd, hdle, hcle, htake, hchain, hlast⟩
                  hsmall (fun _ => rfl) (fun _ => hnx'))
                (by have := pfdMeasure_le dump (i + 1) (cur ++ [')']); omega)
              refine ⟨I1, ?_, ?_, ?_⟩
              · intro s hs
                rcases List.mem_cons.mp hs with rfl | hs
                · exact ⟨hlev, hd⟩
                · exact I2 s hs
              · rw [I3, List.filter_append, filter_closeGroup,
                  drop_eq_chAt_cons dump i hi, hc2, filter_cons_true (by decide)]
                simp
              · rw [filterMap_dproj_marker (by decide), I4,
                  drop_eq_chAt_cons dump i hi, hc2,
                  nestSeq_marker (by decide) (by decide) (by decide)]
          · rw [if_neg hc2]
            by_cases hc3 : chAt dump i = '{'
            · rw [if_pos hc3]
              dsimp only
              have hlev2 : (0 : Int) ≤ lev + 1 := by omega
              have hd2 : inDist lev = min ((lev + 1) * INDENTSTOP) MAXINDENT := rfl
              obtain ⟨I1, I2, I3, I4⟩ := pfd_master dump fuel (i + 1) (lev + 1) (inDist lev)
                (indentSpaces (inDist lev) ++ ['{'])
                (PInv_spaces_concat dump _ (by decide) hlev2 hd2)
                (by rw [pfdMeasure_spaces_concat dump _ '{' hlev2 hd2]; omega)
              refine ⟨?_, ?_, ?_, ?_⟩
              · intro l hl
                rcases List.mem_append.mp hl with hl | hl
                · split at hl
                  · rename_i hfl
                    rcases List.mem_singleton.mp hl with rfl
                    exact ⟨flush_pos hd0 hdle hfl, by omega, hchain⟩
                  · exact absurd hl (List.not_mem_nil l)
                · exact I1 l hl
              · intro s hs
                rcases List.mem_cons.mp hs with rfl | hs
                · exact ⟨hlev2, hd2⟩
                · exact I2 s hs
              · by_cases hfl : (cur.length : Int) ≠ dist
                · rw [if_pos hfl]
                  simp only [List.flatten_append, List.flatten_cons, List.flatten_nil,
                    List.filter_append, List.append_nil, List.nil_append]
                  rw [I3, List.filter_append, filter_indentSpaces, filter_open,
                    drop_eq_chAt_cons dump i hi, hc3, filter_cons_true (by decide)]
                  simp
                · rw [if_neg hfl, List.nil_append, I3, List.filter_append, filter_indentSpaces,
                    filter_open, cur_eq_spaces hd0 hdle htake hfl, filter_indentSpaces,
                    drop_eq_chAt_cons dump i hi, hc3, filter_cons_true (by decide)]
                  simp
              · rw [filterMap_dproj_marker (by decide), I4,
                  drop_eq_chAt_cons dump i hi, hc3, nestSeq_open]
            · rw [if_neg hc3]
              by_cases hc4 : chAt dump i = ':'
              · rw [if_pos hc4]
                dsimp only
                obtain ⟨I1, I2, I3, I4⟩ := pfd_master dump fuel (i + 1) lev dist
                  (indentSpaces dist ++ [':'])
                  (PInv_spaces_concat dump _ (by decide) hlev hd)
                  (by rw [pfdMeasure_spaces_concat dump _ ':' hlev hd]; omega)
                refine ⟨?_, ?_, ?_, ?_⟩
                · intro l hl
                  rcases List.mem_append.mp hl with hl | hl
                  · split at hl
                    · rename_i hfl
                      rcases List.mem_singleton.mp hl with rfl
                      exact ⟨flush_pos hd0 hdle hfl, by omega, hchain⟩
                    · exact absurd hl (List.not_mem_nil l)
                  · exact I1 l hl
                · intro s hs
                  rcases List.mem_cons.mp hs with rfl | hs
                  · exact ⟨hlev, hd⟩
                  · exact I2 s hs
                · by_cases hfl : (cur.length : Int) ≠ dist
                  · rw [if_pos hfl]
                    simp only [List.flatten_append, List.flatten_cons, List.flatten_nil,
                      List.filter_append, List.append_nil, List.nil_append]
                    rw [I3, List.filter_append, filter_indentSpaces, filter_colon,
                      drop_eq_chAt_cons dump i hi, hc4, filter_cons_true (by decide)]
                    simp
                  · rw [if_neg hfl, List.nil_append, I3, List.filter_append,
                      filter_indentSpaces, filter_colon, cur_eq_spaces hd0 hdle htake hfl,
                      filter_indentSpaces, drop_eq_chAt_cons dump i hi, hc4,
                      filter_cons_true (by decide)]
                    simp
                · rw [filterMap_dproj_marker (by decide), I4,
                    drop_eq_chAt_cons dump i hi, hc4,
                    nestSeq_marker (by decide) (by decide) (by decide)]
              · rw [if_neg hc4]
                dsimp only
                obtain ⟨I1, I2, I3, I4⟩ := pfd_master dump fuel (i + 1) lev dist
                  (cur ++ [chAt dump i])
                  (PInv_append_char dump (chAt dump i)
                    ⟨hlev, hd, hdle, hcle, htake, hchain, hlast⟩ hsmall
                    (fun h => hlast h) (fun h => absurd h hc2))
                  (by have := pfdMeasure_le dump (i + 1) (cur ++ [chAt dump i]); omega)
                refine ⟨I1, ?_, ?_, ?_⟩
                · intro s hs
                  rcases List.mem_cons.mp hs with rfl | hs
                  · exact ⟨hlev, hd⟩
                  · exact I2 s hs
                · rw [I3, List.filter_append, List.filter_singleton]
                  conv_rhs => rw [drop_eq_chAt_cons dump i hi]
                  rw [List.filter_cons]
                  cases hns : notSpace (chAt dump i) <;> simp [hns]
                · conv_rhs => rw [drop_eq_chAt_cons dump i hi]
                  by_cases hm : isMarker (chAt dump i) = true
                  · rw [filterMap_dproj_marker hm, I4, nestSeq_marker hc3 hc1 hm]
                  · rw [filterMap_dproj_other hm, I4, nestSeq_other hc3 hc1 hm]

theorem outDist_le_max {lev dist : Int} (h : dist ≤ MAXINDENT) :
    outDist lev dist ≤ MAXINDENT := by
  rw [outDist]
  split
  · exact min_le_right _ _
  · exact h

theorem inDist_le_max (lev : Int) : inDist lev ≤ MAXINDENT := min_le_right _ _

theorem pfdMeasure_spaces_of_le (dump : List Char) (i' : Nat) {dist' : Int}
    (h : dist' ≤ MAXINDENT) :
    pfdMeasure dump i' (indentSpaces dist') = 2 * (dump.length - i') := by
  have hM : MAXINDENT = 60 := rfl
  apply pfdMeasure_small
  rw [length_indentSpaces, LINELEN]
  omega

theorem pfdMeasure_spaces_concat_of_le (dump : List Char) (i' : Nat) {dist' : Int} (x : Char)
    (h : dist' ≤ MAXINDENT) :
    pfdMeasure dump i' (indentSpaces dist' ++ [x]) = 2 * (dump.length - i') := by
  have hM : MAXINDENT = 60 := rfl
  apply pfdMeasure_small
  rw [List.length_append, length_indentSpaces, List.length_singleton, LINELEN]
  omega

theorem pfd_go_fuel (dump : List Char) :
    ∀ f1 f2 i lev dist cur, dist ≤ MAXINDENT →
      pfdMeasure dump i cur < f1 → pfdMeasure dump i cur < f2 →
      pfd_go dump f1 i lev dist cur = pfd_go dump f2 i lev dist cur
  | f1 + 1, f2 + 1, i, lev, dist, cur, hdm, h1, h2 => by
    have hL : LINELEN = 78 := rfl
    rw [pfd_go_step, pfd_go_step]
    by_cases hend : dump.length ≤ i
    · rw [if_pos hend, if_pos hend]
    · have hi : i < dump.length := Nat.lt_of_not_le hend
      rw [if_neg hend, if_neg hend]
      by_cases hw : LINELEN ≤ cur.length
      · rw [if_pos hw, if_pos hw]
        have hμc : pfdMeasure dump i cur = 2 * (dump.length - i) + 1 := by
          rw [pfdMeasure, if_pos hw]
        rw [pfd_go_fuel dump f1 f2 i lev dist (indentSpaces dist) hdm
          (by rw [pfdMeasure_spaces_of_le dump i hdm]; omega)
          (by rw [pfdMeasure_spaces_of_le dump i hdm]; omega)]
      · rw [if_neg hw, if_neg hw]
        have hsmall : cur.length < LINELEN := by omega
        have hμc : pfdMeasure dump i cur = 2 * (dump.length - i) :=
          pfdMeasure_small dump i hsmall
        by_cases hc1 : chAt dump i = '}'
        · rw [if_pos hc1, if_pos hc1]
          have hsk : i + 1 ≤ skipSp dump (i + 1) := skipSp_ge dump (i + 1)
          have hdm2 : outDist lev dist ≤ MAXINDENT := outDist_le_max hdm
          rw [pfd_go_fuel dump f1 f2 (skipSp dump (i + 1)) (outLev lev) (outDist lev dist)
            (indentSpaces (outDist lev dist)) hdm2
            (by rw [pfdMeasure_spaces_of_le dump _ hdm2]; omega)
            (by rw [pfdMeasure_spaces_of_le dump _ hdm2]; omega)]
        · rw [if_neg hc1, if_neg hc1]
          by_cases hc2 : chAt dump i = ')'
          · rw [if_pos hc2, if_pos hc2]
            by_cases hnx : chAt dump (i + 1) ≠ ')'
            · rw [if_pos hnx, if_pos hnx]
              have hsk : i + 1 ≤ skipSp dump (i + 1) := skipSp_ge dump (i + 1)
              rw [pfd_go_fuel dump f1 f2 (skipSp dump (i + 1)) lev dist
                (indentSpaces dist) hdm
                (by rw [pfdMeasure_spaces_of_le dump _ hdm]; omega)
                (by rw [pfdMeasure_spaces_of_le dump _ hdm]; omega)]
            · rw [if_neg hnx, if_neg hnx]
              rw [pfd_go_fuel dump f1 f2 (i + 1) lev dist (cur ++ [')']) hdm
                (by have := pfdMeasure_le dump (i + 1) (cur ++ [')']); omega)
                (by have := pfdMeasure_le dump (i + 1) (cur ++ [')']); omega)]
          · rw [if_neg hc2, if_neg hc2]
            by_cases hc3 : chAt dump i = '{'
            · rw [if_pos hc3, if_pos hc3]
              have hdm2 : inDist lev ≤ MAXINDENT := inDist_le_max lev
              rw [pfd_go_fuel dump f1 f2 (i + 1) (lev + 1) (inDist lev)
                (indentSpaces (inDist lev) ++ ['{']) hdm2
                (by rw [pfdMeasure_spaces_concat_of_le dump _ '{' hdm2]; omega)
                (by rw [pfdMeasure_spaces_concat_of_le dump _ '{' hdm2]; omega)]
            · rw [if_neg hc3, if_neg hc3]
              by_cases hc4 : chAt dump i = ':'
              · rw [if_pos hc4, if_pos hc4]
                rw [pfd_go_fuel dump f1 f2 (i + 1) lev dist
                  (indentSpaces dist ++ [':']) hdm
                  (by rw [pfdMeasure_spaces_concat_of_le dump _ ':' hdm]; omega)
                  (by rw [pfdMeasure_spaces_concat_of_le dump _ ':' hdm]; omega)]
              · rw [if_neg hc4, if_neg hc4]
                rw [pfd_go_fuel dump f1 f2 (i + 1) lev dist (cur ++ [chAt dump i]) hdm
                  (by have := pfdMeasure_le dump (i + 1) (cur ++ [chAt dump i]); omega)
                  (by have := pfdMeasure_le dump (i + 1) (cur ++ [chAt dump i]); omega)]

/-! ## Run-level consequences -/

theorem PInv_init (dump : List Char) : PInv dump 0 0 0 [] := by
  refine ⟨le_refl 0, by rw [INDENTSTOP, MAXINDENT]; decide, by simp, ?_, rfl,
    List.chain'_nil, by simp⟩
  rw [LINELEN]
  simp

theorem pfdMeasure_init (dump : List Char) : pfdMeasure dump 0 [] < pfdFuel dump := by
  rw [pfdMeasure, pfdFuel, if_neg (by rw [LINELEN]; simp)]
  omega

theorem pfd_run_master (dump : List Char) :
    (∀ l ∈ (pfd_run dump).1, 0 < l.length ∧ l.length ≤ LINELEN ∧ List.Chain' Rcg l) ∧
    (∀ s ∈ (pfd_run dump).2, 0 ≤ s.2.1 ∧ s.2.2 = min (s.2.1 * INDENTSTOP) MAXINDENT) ∧
    (pfd_run dump).1.flatten.filter notSpace = dump.filter notSpace ∧
    (pfd_run dump).2.filterMap dproj = nestSeq 0 dump := by
  have h := pfd_master dump (pfdFuel dump) 0 0 0 [] (PInv_init dump) (pfdMeasure_init dump)
  rw [pfd_run]
  simpa using h

/-! ## Structure preservation helpers -/

theorem filter_cons_space (l : List Char) : (' ' :: l).filter notSpace = l.filter notSpace :=
  List.filter_cons_of_neg (by decide)

theorem marker_notSpace {a : Char} (h : isMarker a = true) : notSpace a = true := by
  rw [isMarker] at h
  simp only [Bool.or_eq_true, decide_eq_true_eq] at h
  rcases h with (((h | h) | h) | h) | h <;> subst h <;> decide

theorem filter_markers_notSpace (s : List Char) :
    (s.filter notSpace).filter isMarker = s.filter isMarker := by
  rw [List.filter_filter]
  apply List.filter_congr
  intro a _
  cases hm : isMarker a
  · simp [hm]
  · simp [hm, marker_notSpace hm]

theorem filter_breaksToSpaces :
    ∀ L : List (List Char), (breaksToSpaces L).filter notSpace = L.flatten.filter notSpace
  | [] => rfl
  | [l] => by
    rw [breaksToSpaces, List.flatten_cons, List.flatten_nil, List.append_nil]
  | l :: l2 :: rest => by
    rw [breaksToSpaces, List.flatten_cons, List.filter_append, List.filter_append,
      filter_cons_space, filter_breaksToSpaces (l2 :: rest)]

theorem nestSeq_filter_markers (lev : Int) :
    ∀ s : List Char, nestSeq lev (s.filter isMarker) = nestSeq lev s
  | [] => rfl
  | c :: cs => by
    by_cases h1 : c = '{'
    · subst h1
      rw [List.filter_cons_of_pos (by decide), nestSeq_open, nestSeq_open,
        nestSeq_filter_markers (lev + 1) cs]
    · by_cases h2 : c = '}'
      · subst h2
        rw [List.filter_cons_of_pos (by decide), nestSeq_close, nestSeq_close,
          nestSeq_filter_markers (outLev lev) cs]
      · by_cases hm : isMarker c = true
        · rw [List.filter_cons_of_pos hm, nestSeq_marker h1 h2 hm,
            nestSeq_marker h1 h2 hm, nestSeq_filter_markers lev cs]
        · rw [List.filter_cons_of_neg hm, nestSeq_other h1 h2 hm,
            nestSeq_filter_markers lev cs]

/-! ## Concrete inputs for Scenario C -/

/-- The Scenario C input of the spec. -/
def c1input : List Char :=
  ['{', 'A', ' ', ':', 'B', ' ', '1', ' ', '{', 'C', ' ', ':', 'D', ' ', '2', '}', '}']

/-- The six output lines Scenario C of the spec claims. -/
def c1claimed : List (List Char) :=
  [[' ', ' ', ' ', '{', ' ', 'A'],
   [' ', ' ', ' ', ':', 'B', ' ', '1'],
   [' ', ' ', ' ', ' ', ' ', ' ', '{', ' ', 'C'],
   [' ', ' ', ' ', ' ', ' ', ' ', ':', 'D', ' ', '2'],
   [' ', ' ', ' ', ' ', ' ', ' ', '}'],
   [' ', ' ', ' ', '}']]

/-- The six output lines the code actually produces on the Scenario C
input: the character after an open-block stays glued to it, and the lines
flushed at a field separator or open-block keep their trailing space. -/
def c1actual : List (List Char) :=
  [[' ', ' ', ' ', '{', 'A', ' '],
   [' ', ' ', ' ', ':', 'B', ' ', '1', ' '],
   [' ', ' ', ' ', ' ', ' ', ' ', '{', 'C', ' '],
   [' ', ' ', ' ', ' ', ' ', ' ', ':', 'D', ' ', '2'],
   [' ', ' ', ' ', ' ', ' ', ' ', '}'],
   [' ', ' ', ' ', '}']]

/-! ## Claims -/

/-- C1, counterexample: on the Scenario C input, pretty_format_node_dump
does not produce the six lines the claim lists; in particular its first
line is three spaces, open-block, A, trailing space, not three spaces,
open-block, space, A. -/
theorem claim1_counterexample : pretty_format_node_dump c1input ≠ c1claimed := by decide

/-- C1, amended: on the Scenario C input pretty_format_node_dump produces
exactly six lines, with 3-space indentation per nesting level and each
field separator, open-block and close-block starting its own line, but a
character directly following an open-block in the input stays on the
open-block's line with no inserted space, and lines broken before a
field separator or open-block keep the trailing space of the input. -/
theorem claim1_scenario : pretty_format_node_dump c1input = c1actual := by decide

/-- C2: every line emitted by format_node_dump and every line emitted by
pretty_format_node_dump is at most 78 characters long, excluding the
terminating newline. -/
theorem claim2_width (dump : List Char) :
    (∀ l ∈ format_node_dump dump, l.length ≤ 78) ∧
    (∀ l ∈ pretty_format_node_dump dump, l.length ≤ 78) := by
  constructor
  · intro l hl
    rw [format_node_dump] at hl
    obtain ⟨p, hp, rfl⟩ := List.mem_map.mp hl
    exact fnd_lines_le dump (fndFuel dump) 0 p hp
  · intro l hl
    rw [pretty_format_node_dump] at hl
    exact ((pfd_run_master dump).1 l hl).2.1

/-- C2, witness at a concrete input. -/
theorem claim2_width_witness : (['a'] : List Char).length ≤ 78 :=
  (claim2_width ['a']).1 ['a'] (by decide)

/-- C3: throughout any run of pretty_format_node_dump, indentLev never
goes negative and indentDist always equals min (indentLev * 3) 60; an
unmatched close-block at level 0 still emits its own line while
indentation stays at column 0 afterwards. -/
theorem claim3_indent :
    (∀ dump : List Char, ∀ s ∈ pfd_states dump, 0 ≤ s.1 ∧ s.2 = min (s.1 * 3) 60) ∧
    pretty_format_node_dump ['}', 'a'] = [['}'], ['a']] := by
  constructor
  · intro dump s hs
    rw [pfd_states] at hs
    rcases List.mem_cons.mp hs with rfl | hs
    · exact ⟨le_refl 0, by decide⟩
    · obtain ⟨e, he, rfl⟩ := List.mem_map.mp hs
      have h2 := (pfd_run_master dump).2.1 e he
      exact ⟨h2.1, h2.2⟩
  · decide

/-- C3, witness at a concrete input and state. -/
theorem claim3_indent_witness :
    0 ≤ (((0 : Int), (0 : Int))).1 ∧ (((0 : Int), (0 : Int))).2 = min ((((0 : Int), (0 : Int))).1 * 3) 60 :=
  claim3_indent.1 ['}', 'a'] ((0 : Int), (0 : Int)) (by decide)

/-- C4, counterexample: on a single 79-character token, splitting the
output of format_node_dump on whitespace yields two tokens where the
input has one, so the token streams differ. -/
theorem claim4_counterexample :
    wsTokens (emitText (format_node_dump (List.replicate 79 'a'))) ≠
      wsTokens (List.replicate 79 'a') := by decide

/-- C4, amended: whenever every 78-character window of the input contains
a space (equivalently, every maximal non-space token is shorter than 78),
splitting format_node_dump's output on whitespace and splitting its input
on whitespace yield identical token sequences. -/
theorem claim4_tokens (dump : List Char)
    (hnarrow : ∀ m, m + 78 ≤ dump.length → ∃ t, t < 78 ∧ chAt dump (m + t) = ' ') :
    wsTokens (emitText (format_node_dump dump)) = wsTokens dump := by
  have h := fnd_tokens dump hnarrow (fndFuel dump) 0 (by rw [fndFuel]; omega)
  rw [List.drop_zero] at h
  exact h

/-- C4, witness at a concrete input. -/
theorem claim4_tokens_witness :
    wsTokens (emitText (format_node_dump ['a', 'b', ' ', 'c'])) =
      wsTokens ['a', 'b', ' ', 'c'] :=
  claim4_tokens ['a', 'b', ' ', 'c'] (fun m hm =>
    absurd hm (by simp only [List.length_cons, List.length_nil]; omega))

/-- C5, counterexample: two consecutive close-groups of the input can land
on different output lines: when the first close-group fills column 78 the
width bound flushes the line before the second close-group is read. -/
theorem claim5_counterexample :
    pretty_format_node_dump (List.replicate 77 'a' ++ [')', ')']) =
      [List.replicate 77 'a' ++ [')'], [')']] := by decide

/-- C5, amended: within every line pretty_format_node_dump emits, a
close-group character is followed only by another close-group or ends the
line, so a close-group followed by a non-close-group always starts a new
line immediately after it; consecutive input close-groups share a line
except when the 78-column width bound forces a flush between them. -/
theorem claim5_adjacency (dump : List Char) :
    ∀ l ∈ pretty_format_node_dump dump, List.Chain' Rcg l := by
  intro l hl
  rw [pretty_format_node_dump] at hl
  exact ((pfd_run_master dump).1 l hl).2.2

/-- C5, witness at a concrete input. -/
theorem claim5_adjacency_witness : List.Chain' Rcg [')'] :=
  claim5_adjacency [')'] [')'] (by decide)

/-- C6, counterexample: a hard split (the full-buffer emit after the
backward scan found no space) happens on an input whose only token has
exactly 78 characters, not more than 78: a space at the buffer's first
position is not a break point for the backward scan. -/
theorem claim6_counterexample :
    ((wsTokens (' ' :: List.replicate 78 'a')).all
      (fun t => decide (t.length ≤ 78))) = true ∧
    (fnd_run (' ' :: List.replicate 78 'a')).map Prod.snd =
      [BreakKind.hardBreak, BreakKind.last] := by decide

/-- C6, amended: the full-buffer emit after a failed backward scan is the
only break placed inside a token: restoring one space for each
space-consuming break and nothing for a hard break reconstructs the input
exactly; and a hard break occurs only when the input contains 78
consecutive characters none of which is a space, i.e. a token of length
at least 78 suitably aligned (a token longer than 78 always forces it,
but a 78-character token preceded by a space at the buffer start can also
be split). -/
theorem claim6_hard_split (dump : List Char) :
    glue (fnd_run dump) = dump ∧
    ∀ p ∈ fnd_run dump, p.2 = BreakKind.hardBreak →
      ∃ m, m + 78 ≤ dump.length ∧ ∀ t, t < 78 → ¬chAt dump (m + t) = ' ' := by
  constructor
  · have h := fnd_glue dump (fndFuel dump) 0 (by rw [fndFuel]; omega)
    rwa [List.drop_zero] at h
  · intro p hp hh
    exact fnd_hard_window dump (fndFuel dump) 0 p hp hh

/-- C6, witness at a concrete input with a hard break. -/
theorem claim6_hard_split_witness :
    ∃ m, m + 78 ≤ (List.replicate 79 'a').length ∧
      ∀ t, t < 78 → ¬chAt (List.replicate 79 'a') (m + t) = ' ' :=
  (claim6_hard_split (List.replicate 79 'a')).2
    (List.replicate 78 'a', BreakKind.hardBreak) (by decide) (by decide)

/-- C7: both reformatters terminate on every finite input and always
return a result: the iteration count is bounded by the input length, so
any fuel at least fndFuel (respectively pfdFuel) yields the same, final
output as the canonical run. -/
theorem claim7_terminates (dump : List Char) (f g : Nat)
    (hf : fndFuel dump ≤ f) (hg : pfdFuel dump ≤ g) :
    fnd_go dump f 0 = fnd_run dump ∧ pfd_go dump g 0 0 0 [] = pfd_run dump := by
  constructor
  · rw [fnd_run]
    apply fnd_go_fuel dump f (fndFuel dump) 0
    · rw [fndFuel] at hf
      omega
    · rw [fndFuel]
      omega
  · rw [pfd_run]
    apply pfd_go_fuel dump g (pfdFuel dump) 0 0 0 []
    · rw [MAXINDENT]
      omega
    · exact lt_of_lt_of_le (pfdMeasure_init dump) hg
    · exact pfdMeasure_init dump

/-- C7, witness at a concrete input and fuels. -/
theorem claim7_terminates_witness :
    fnd_go ['a'] 5 0 = fnd_run ['a'] ∧ pfd_go ['a'] 7 0 0 0 [] = pfd_run ['a'] :=
  claim7_terminates ['a'] 5 7 (by decide) (by decide)

/-- C8: re-running pretty_format_node_dump on its own output with the
inserted line breaks turned into spaces attains the same nesting-depth
sequence at its marker characters as the run on the original input, and
the subsequence of marker characters is preserved in order from input to
output. -/
theorem claim8_idempotent_structure (dump : List Char) :
    pfd_depthSeq (breaksToSpaces (pretty_format_node_dump dump)) = pfd_depthSeq dump ∧
    (breaksToSpaces (pretty_format_node_dump dump)).filter isMarker =
      dump.filter isMarker := by
  have hmark : (breaksToSpaces (pretty_format_node_dump dump)).filter isMarker =
      dump.filter isMarker := by
    rw [← filter_markers_notSpace (breaksToSpaces (pretty_format_node_dump dump)),
      filter_breaksToSpaces, pretty_format_node_dump, (pfd_run_master dump).2.2.1,
      filter_markers_notSpace]
  constructor
  · have h1 : pfd_depthSeq (breaksToSpaces (pretty_format_node_dump dump)) =
        nestSeq 0 (breaksToSpaces (pretty_format_node_dump dump)) :=
      (pfd_run_master (breaksToSpaces (pretty_format_node_dump dump))).2.2.2
    have h2 : pfd_depthSeq dump = nestSeq 0 dump := (pfd_run_master dump).2.2.2
    rw [h1, h2, ← nestSeq_filter_markers 0 (breaksToSpaces (pretty_format_node_dump dump)),
      hmark, nestSeq_filter_markers]
  · exact hmark

/-- C9: pretty_format_node_dump never emits an empty line: every line of
its output contains at least one character before its newline. -/
theorem claim9_no_empty_line (dump : List Char) :
    ∀ l ∈ pretty_format_node_dump dump, 0 < l.length := by
  intro l hl
  rw [pretty_format_node_dump] at hl
  exact ((pfd_run_master dump).1 l hl).1

/-- C9, witness at a concrete input. -/
theorem claim9_no_empty_line_witness : 0 < (['a'] : List Char).length :=
  claim9_no_empty_line ['a'] ['a'] (by decide)

/-- C10: on the input open-block, a, close-group, the final line of
pretty_format_node_dump's output consists entirely of spaces: the
close-group flushed the buffer while the indent distance was 3, and the
final flush emits the space-only prefill because its fill position is
positive. -/
theorem claim10_whitespace_final_line :
    pretty_format_node_dump ['{', 'a', ')'] =
      [[' ', ' ', ' ', '{', 'a', ')'], List.replicate 3 ' '] := by decide
